import Mathlib

/-!
# Verification of the answer-grading and score-extraction core

Shallow embedding of the two algorithmic cores of the repository:

* `apps/api/src/services/gradingHeuristic.ts` — tokenizer, term-frequency
  cosine similarity, keyword gap analysis and the heuristic grader
  `gradeSubmissionHeuristic`;
* `extractQaPairs` (answer segmenter) — regex-driven question-marker
  scanning, last-occurrence de-duplication and numeric sort;
* `apps/api/src/services/extractScore.ts` — noisy score extraction with
  candidate ranking.

Strings are modelled as Lean `String` / `List Char`; JavaScript numbers are
modelled as `ℕ`/`ℚ` where the code only ever produces such values, and as
`ℝ` where genuine real arithmetic (square roots, division) occurs.
JavaScript regular expressions are compiled by hand into executable
scanners over `List Char`; each definition notes the regex it implements
and the backtracking analysis justifying the compilation.
-/

namespace SchoolAi

/-! ## Character-level utilities shared by both cores -/

/-- JavaScript `\s` / `String.trim` whitespace, restricted to the ASCII
whitespace characters (space, tab, newline, carriage return, vertical tab,
form feed).  The JS classes also contain rare Unicode space characters,
which never occur in the texts the claims quantify over. -/
def isWs (c : Char) : Bool :=
  c = ' ' || c = '\t' || c = '\n' || c = '\r' || c = '\x0b' || c = '\x0c'

/-- ASCII lower-casing, the effect of JS `toLowerCase` on ASCII text. -/
def asciiLower (c : Char) : Char :=
  if 'A' ≤ c ∧ c ≤ 'Z' then Char.ofNat (c.toNat + 32) else c

/-- JS `\w` word characters `[A-Za-z0-9_]` (used for `\b` boundaries). -/
def isWordChar (c : Char) : Bool :=
  c.isAlphanum || c = '_'

/-- `replace(/\r\n/g, "\n")`: collapse CRLF line endings. -/
def replCRLF : List Char → List Char
  | '\r' :: '\n' :: rest => '\n' :: replCRLF rest
  | c :: rest => c :: replCRLF rest
  | [] => []

/-- JS `String.prototype.trim` on a character list. -/
def listTrim (cs : List Char) : List Char :=
  ((cs.dropWhile isWs).reverse.dropWhile isWs).reverse

/-- `trim` on a `String` (used for answers in the grader). -/
def trimS (s : String) : String :=
  String.mk (listTrim s.data)

/-- Numeric value of a decimal-digit string; JS `Number(s)` for the digit
strings (`\d{1,3}` captures and the fallback id `"1"`) that actually reach
the numeric sorts.  On non-digit strings JS `Number` gives `NaN`, which the
JS sort comparator treats as `0` (equal); this model likewise gives every
such string a fixed key, which only influences the order among ids that
have no numeric value. -/
def strNum (s : String) : ℕ :=
  s.data.foldl (fun a c => a * 10 + (c.toNat - 48)) 0

/-- First-occurrence de-duplication: the key order of a JS `Map`/`Set`
built by repeated insertion (insertion order, first insertion wins for
position).  Filtering the recursive result rather than the argument keeps
the recursion structural; the two are the same function. -/
def firstDedup {α : Type} [DecidableEq α] : List α → List α
  | [] => []
  | k :: rest => k :: (firstDedup rest).filter (fun x => ¬ x = k)

/-! ## Tokenizer and term frequency (`gradingHeuristic.ts`) -/

/-- The module-level `STOP_WORDS` set of `gradingHeuristic.ts`. -/
def STOP_WORDS : List String :=
  ["a","an","the","and","or","but","if","then","else","when","while","of","to","in","on","at","by","for","from","with",
   "is","are","was","were","be","been","being","as","it","this","that","these","those","we","you","they","i","he","she",
   "not","no","yes","do","does","did","done","can","could","should","would","may","might","must","will","shall",
   "there","here","than","so","such","also","into","over","under","between","within","without"]

/-- `replace(/[^a-z0-9\s]/g, " ")` on already-lowercased text. -/
def sanitizeChar (c : Char) : Char :=
  if ('a' ≤ c ∧ c ≤ 'z') ∨ ('0' ≤ c ∧ c ≤ '9') ∨ isWs c then c else ' '

/-- `split(/\s+/)` restricted to its non-empty results: the maximal runs of
non-whitespace characters.  (The single empty token JS produces at a
leading whitespace is removed by the `length ≥ 2` filter anyway.)
`fuel`-based so that the kernel can evaluate it; every step strictly
shortens the list, so `length + 1` steps always suffice. -/
def splitWsF : ℕ → List Char → List (List Char)
  | 0, _ => []
  | _ + 1, [] => []
  | fuel + 1, c :: rest =>
    if isWs c then splitWsF fuel rest
    else (c :: rest.takeWhile (fun d => !isWs d)) ::
      splitWsF fuel (rest.dropWhile (fun d => !isWs d))

def splitWs (cs : List Char) : List (List Char) :=
  splitWsF (cs.length + 1) cs

/-- `tokenize` from `gradingHeuristic.ts`: lower-case, strip everything but
`[a-z0-9\s]`, split on whitespace, keep tokens of length ≥ 2 that are not
stop words. -/
def tokenize (s : String) : List String :=
  ((splitWs ((s.data.map asciiLower).map sanitizeChar)).map String.mk).filter
    (fun t => 2 ≤ t.length ∧ ¬ t ∈ STOP_WORDS)

/-- `termFreq` materialised as an association list in `Map` insertion order
(first occurrence) with the final accumulated counts. -/
def freqEntries (tokens : List String) : List (String × ℕ) :=
  (firstDedup tokens).map (fun t => (t, tokens.count t))

/-! ## Cosine similarity (`gradingHeuristic.ts`) -/

/-- `clamp(n, min, max) = Math.min(max, Math.max(min, n))`. -/
noncomputable def clampR (n lo hi : ℝ) : ℝ := min hi (max lo n)

/-- The dot product loop of `cosineSimilarity`: iterate over the entries of
the first frequency map and look each key up in the second (`?? 0`). -/
def dotp (ta tb : List String) : ℕ :=
  ((firstDedup ta).map (fun t => ta.count t * tb.count t)).sum

/-- The `normA`/`normB` loops: the sum of `v * v` over the map's values. -/
def normSq (ta : List String) : ℕ :=
  ((firstDedup ta).map (fun t => ta.count t * ta.count t)).sum

/-- `cosineSimilarity` from `gradingHeuristic.ts`.  Counts are exact
naturals (JS doubles hold them exactly); the final quotient is real. -/
noncomputable def cosineSimilarity (a b : String) : ℝ :=
  let ta := tokenize a
  let tb := tokenize b
  if ta = [] ∨ tb = [] then 0
  else if normSq ta = 0 ∨ normSq tb = 0 then 0
  else clampR ((dotp ta tb : ℝ) / (Real.sqrt (normSq ta) * Real.sqrt (normSq tb))) 0 1

/-! ## Keyword gap analysis (`gradingHeuristic.ts`) -/

/-- JS stable `sort((a, b) => b[1] - a[1])` (descending by count): Mathlib's
insertion sort with the reflexive descending order is stable in exactly the
same way (earlier elements stay before later ones of equal count). -/
def sortDescByCount (l : List (String × ℕ)) : List (String × ℕ) :=
  l.insertionSort (fun x y => y.2 ≤ x.2)

/-- `extractKeyPhrases(modelAnswer, limit)`. -/
def extractKeyPhrases (modelAnswer : String) (limit : ℕ) : List String :=
  let tokens := (tokenize modelAnswer).filter (fun t => 5 ≤ t.length)
  ((sortDescByCount (freqEntries tokens)).take limit).map (fun e => e.1)

/-- `missingKeywords(modelAnswer, studentAnswer, limit)`. -/
def missingKeywords (modelAnswer studentAnswer : String) (limit : ℕ) : List String :=
  let modelTokens := (tokenize modelAnswer).filter (fun t => 5 ≤ t.length)
  let studentSet := tokenize studentAnswer
  ((sortDescByCount ((freqEntries modelTokens).filter
      (fun e => ¬ e.1 ∈ studentSet))).take limit).map (fun e => e.1)

/-- `aggregateWeakAreas(areas)`: frequency-aggregate and keep the 10 most
frequent, stable on ties. -/
def aggregateWeakAreas (areas : List String) : List String :=
  ((sortDescByCount (freqEntries areas)).take 10).map (fun e => e.1)

/-! ## Data model (`gradingSchema.ts` / §3 of the design) -/

/-- A question-id/answer-text span (`QaPair` in `extractQaPairs.ts`). -/
structure QaPair where
  questionId : String
  text : String
deriving DecidableEq, Repr

structure Deduction where
  reason : String
  marks : ℝ

structure QuestionResult where
  questionId : String
  marksAwarded : ℝ
  maxMarks : ℝ
  feedback : String
  deductions : List Deduction
  weakAreas : List String

structure Evaluation where
  totalMarks : ℝ
  maxTotalMarks : ℝ
  overallFeedback : String
  weakAreas : List String
  confidence : ℝ
  questions : List QuestionResult

/-! ## The heuristic grader (`gradeSubmissionHeuristic`) -/

/-- `new Map(list.map(q => [q.questionId, q.text])).get(id)`: on duplicate
keys the later entry overwrites, so lookup returns the last pair's text. -/
def mapLookup (l : List QaPair) (id : String) : Option String :=
  ((l.filter (fun q => q.questionId = id)).getLast?).map (fun q => q.text)

/-- The id iteration order: `[...new Set([...model, ...student])]` (first
occurrence order) sorted by `Number(a) - Number(b)` with a stable sort. -/
def questionIdsOf (modelQa studentQa : List QaPair) : List String :=
  (firstDedup (modelQa.map (fun q => q.questionId) ++
    studentQa.map (fun q => q.questionId))).insertionSort
    (fun a b => strNum a ≤ strNum b)

/-- JS `Math.round` is round-half-up: `⌊x + 1/2⌋`. -/
noncomputable def jsRound (x : ℝ) : ℤ := ⌊x + 1/2⌋

open Classical in
/-- The per-question body of `gradeSubmissionHeuristic`'s `questionIds.map`. -/
noncomputable def gradeOne (modelQa studentQa : List QaPair)
    (maxMarksPerQuestion : ℕ) (id : String) : QuestionResult :=
  let modelAnswer := trimS ((mapLookup modelQa id).getD "")
  let studentAnswer := trimS ((mapLookup studentQa id).getD "")
  let maxMarks : ℝ := maxMarksPerQuestion
  if studentAnswer = "" then
    { questionId := id, marksAwarded := 0, maxMarks := maxMarks,
      feedback := "No answer detected for this question.",
      deductions := [⟨"Blank or unreadable answer", maxMarks⟩],
      weakAreas := if modelAnswer = "" then [] else extractKeyPhrases modelAnswer 6 }
  else if modelAnswer = "" then
    { questionId := id, marksAwarded := 0, maxMarks := maxMarks,
      feedback := "Model answer for this question was not detected; cannot grade reliably.",
      deductions := [⟨"Missing model answer", maxMarks⟩],
      weakAreas := [] }
  else
    let sim := cosineSimilarity modelAnswer studentAnswer
    let raw := sim * maxMarks
    let marksAwarded := clampR ((jsRound (raw * 2) : ℝ) / 2) 0 maxMarks
    let missing := missingKeywords modelAnswer studentAnswer 6
    let deductions :=
      if marksAwarded = maxMarks then []
      else [⟨if missing = [] then "Answer differs from model key"
             else "Missing key points: " ++ String.intercalate ", " missing,
             clampR (maxMarks - marksAwarded) 0 maxMarks⟩]
    let feedback :=
      if marksAwarded = maxMarks then "Matches the model answer closely."
      else if missing = [] then "Partially correct. Add more specific points from the model answer."
      else "Partially correct. Improve coverage of: " ++ String.intercalate ", " missing ++ "."
    { questionId := id, marksAwarded := marksAwarded, maxMarks := maxMarks,
      feedback := feedback, deductions := deductions, weakAreas := missing }

/-- `gradeSubmissionHeuristic` from `gradingHeuristic.ts`. -/
noncomputable def gradeSubmissionHeuristic (modelQa studentQa : List QaPair)
    (maxMarksPerQuestion : ℕ) : Evaluation :=
  let questionIds := questionIdsOf modelQa studentQa
  let questions := questionIds.map (gradeOne modelQa studentQa maxMarksPerQuestion)
  { totalMarks := questions.foldl (fun acc q => acc + q.marksAwarded) 0,
    maxTotalMarks := questions.foldl (fun acc q => acc + q.maxMarks) 0,
    overallFeedback := "Heuristic grading used (free, no LLM). For best accuracy and richer feedback, enable OpenAI billing or use a local LLM.",
    weakAreas := aggregateWeakAreas (questions.map (fun q => q.weakAreas)).flatten,
    confidence := 0.35,
    questions := questions }

/-! ## Answer segmenter (`extractQaPairs`)

The marker regex is `/(^|\n)\s*(?:Q(?:uestion)?\s*)?(\d{1,3})\s*[:.)-]\s*/gi`,
executed in an `exec` loop.  It is compiled into executable scanners below.
Backtracking analysis: every `\s*` is followed by a character class that
contains no whitespace (`q`, a digit, or `[:.)-]`) or by nothing, so each
`\s*` can be taken maximally without backtracking; the only genuine
alternations are `(^|\n)` (in that priority order; `^` matches only at
index 0 since the regex has no `m` flag), the optional
`(?:Q(?:uestion)?\s*)?` (prefer `question`, then `q`, then nothing — the
`i` flag makes the letters case-insensitive), and the greedy `\d{1,3}`
(try 3, then 2, then 1 digits). -/

/-- A recorded question marker: `{ idx, qid, markerLen }` where `idx` is
the offset after the `(^|\n)` group and `markerLen` the length of the rest
of the match. -/
structure Marker where
  idx : ℕ
  qid : String
  markerLen : ℕ
deriving DecidableEq, Repr

/-- Length of the maximal leading whitespace run (a maximal `\s*`). -/
def wsCount (cs : List Char) : ℕ := (cs.takeWhile isWs).length

/-- `\s*[:.)-]\s*` at the head of `cs`: consumed length on success. -/
def sepAfter (cs : List Char) : Option ℕ :=
  let w := wsCount cs
  match cs.drop w with
  | c :: rest =>
    if c = ':' || c = '.' || c = ')' || c = '-' then some (w + 1 + wsCount rest)
    else none
  | [] => none

/-- One greedy alternative of `(\d{1,3})\s*[:.)-]\s*`: exactly `k` leading
digits, then the separator part.  Returns consumed length and the digits. -/
def digitsTry (cs : List Char) (k : ℕ) : Option (ℕ × String) :=
  let ds := cs.take k
  if ds.all (fun c => c.isDigit) && ds.length == k then
    match sepAfter (cs.drop k) with
    | some n => some (k + n, String.mk ds)
    | none => none
  else none

/-- `(\d{1,3})\s*[:.)-]\s*`, greedy in the digit count. -/
def digitsPart (cs : List Char) : Option (ℕ × String) :=
  (digitsTry cs 3).orElse (fun _ => (digitsTry cs 2).orElse (fun _ => digitsTry cs 1))

/-- The consumed-length alternatives of `(?:Q(?:uestion)?\s*)?` (with the
`i` flag), in the order the backtracking engine tries them. -/
def qAlts (cs : List Char) : List ℕ :=
  (match cs with
   | c :: rest =>
     if c = 'q' || c = 'Q' then
       (if ['u','e','s','t','i','o','n'].isPrefixOf (rest.map asciiLower)
        then [8 + wsCount (rest.drop 7)] else []) ++ [1 + wsCount rest]
     else []
   | [] => []) ++ [0]

/-- `\s*(?:Q(?:uestion)?\s*)?(\d{1,3})\s*[:.)-]\s*` at the head of `cs`:
consumed length and captured digits. -/
def matchCore (cs : List Char) : Option (ℕ × String) :=
  let w := wsCount cs
  let r := cs.drop w
  (qAlts r).findSome? (fun ql =>
    (digitsPart (r.drop ql)).map (fun p => (w + ql + p.1, p.2)))

/-- The `(^|\n)` group's consumed-length alternatives at a position:
`^` (length 0) only at index 0, then a literal newline. -/
def g1Alts (isStart : Bool) (cs : List Char) : List ℕ :=
  (if isStart then [0] else []) ++
  (match cs with
   | '\n' :: _ => [1]
   | _ => [])

/-- A full match attempt of the marker regex anchored at the head of `cs`:
`(group-1 length, core length, captured digits)`. -/
def attemptAt (isStart : Bool) (cs : List Char) : Option (ℕ × ℕ × String) :=
  (g1Alts isStart cs).findSome? (fun g =>
    (matchCore (cs.drop g)).map (fun p => (g, p.1, p.2)))

/-- The `re.exec` loop: find the leftmost match at or after position `p`,
record `{ idx := m.index + m[1].length, qid, markerLen := len - m[1].length }`,
and continue from the end of the match.  `fuel` bounds the recursion; every
step strictly shortens `cs`, so `cs.length + 1` is always enough. -/
def scanFrom : ℕ → ℕ → List Char → List Marker
  | 0, _, _ => []
  | fuel + 1, p, cs =>
    match attemptAt (p == 0) cs with
    | some (g, n, q) => ⟨p + g, q, n⟩ :: scanFrom fuel (p + g + n) (cs.drop (g + n))
    | none =>
      match cs with
      | [] => []
      | _ :: rest => scanFrom fuel (p + 1) rest

/-- All markers of a text. -/
def markersOf (cs : List Char) : List Marker :=
  scanFrom (cs.length + 1) 0 cs

/-- The `pairs` loop: each marker's span runs from the end of its marker to
the start of the next marker (or the end of text), trimmed. -/
def buildPairs (text : List Char) : List Marker → List QaPair
  | [] => []
  | m :: rest =>
    let start := m.idx + m.markerLen
    let stop := match rest with
      | [] => text.length
      | m2 :: _ => m2.idx
    ⟨m.qid, String.mk (listTrim ((text.drop start).take (stop - start)))⟩ ::
      buildPairs text rest

/-- The final text of question id `k` in a span list: the last span carrying
that id (`byId.set` overwrites the value). -/
def lastPairOf (ps : List QaPair) (k : String) : QaPair :=
  ((ps.filter (fun q => q.questionId = k)).getLast?).getD ⟨k, ""⟩

/-- The `byId` de-duplication: a JS `Map` keeps keys in first-insertion
order and `set` overwrites values in place, so the value list is the
first-occurrence key order, each key paired with its last span. -/
def dedupLast (ps : List QaPair) : List QaPair :=
  (firstDedup (ps.map (fun q => q.questionId))).map (lastPairOf ps)

/-- JS stable `sort((a, b) => Number(a.questionId) - Number(b.questionId))`. -/
def sortByQid (ps : List QaPair) : List QaPair :=
  ps.insertionSort (fun p q => strNum p.questionId ≤ strNum q.questionId)

/-- The span list before de-duplication and sorting (the `pairs` variable),
with the two fallbacks of the source made explicit. -/
def preSpans (raw : String) : List QaPair :=
  let text := listTrim (replCRLF raw.data)
  if text = [] then []
  else
    let ms := markersOf text
    if ms = [] then [⟨"1", String.mk text⟩]
    else buildPairs text ms

/-- `extractQaPairs` from the answer segmenter. -/
def extractQaPairs (raw : String) : List QaPair :=
  let text := listTrim (replCRLF raw.data)
  if text = [] then []
  else
    let ms := markersOf text
    if ms = [] then [⟨"1", String.mk text⟩]
    else sortByQid (dedupLast (buildPairs text ms))

/-! ## Noisy score extraction (`extractScore.ts`)

The scanners below compile the three number patterns
`/\b(\d{1,3})\s*\/\s*(\d{1,3})\b/g`, `/\b(\d{1,3})\s*(?:out\s*of)\s*(\d{1,3})\b/g`
and `/\b(\d{1,3})\b/g` over the normalised (lower-cased) text.  A `\b`
before a digit requires the previous character to be a non-word character
(or the start of text); a `\b` after a digit requires the next character to
be a non-word character (or the end).  As with the marker regex, every
`\s*` is followed by a non-whitespace requirement, so it is taken
maximally, and the only backtracking is the greedy digit counts. -/

/-- The extraction method tag of `ExtractedScore`. -/
inductive Method where
  | fraction
  | out_of
  | label
  | fallback
deriving DecidableEq, Repr

/-- One candidate score pair found in the text. -/
structure ScoreCandidate where
  obtained : ℕ
  outOf : Option ℕ
  raw : String
deriving DecidableEq, Repr

/-- The result record of `extractScoreFromText`. -/
structure ExtractedScore where
  obtained : Option ℕ
  outOf : Option ℕ
  confidence : ℚ
  method : Method
  candidates : List ScoreCandidate
deriving DecidableEq, Repr

/-- Value of a digit run. -/
def digitsVal (ds : List Char) : ℕ :=
  ds.foldl (fun a c => a * 10 + (c.toNat - 48)) 0

/-- `replace(/[ \t]+/g, " ")`: collapse runs of spaces/tabs to one space.
`fuel`-based for kernel evaluation; `length + 1` steps always suffice. -/
def collapseWsF : ℕ → List Char → List Char
  | 0, _ => []
  | _ + 1, [] => []
  | fuel + 1, c :: rest =>
    if c = ' ' || c = '\t' then
      ' ' :: collapseWsF fuel (rest.dropWhile (fun d => d = ' ' || d = '\t'))
    else c :: collapseWsF fuel rest

def collapseWs (cs : List Char) : List Char :=
  collapseWsF (cs.length + 1) cs

/-- `normalize` from `extractScore.ts`, as a character list. -/
def normalizeScore (s : String) : List Char :=
  listTrim (collapseWs (replCRLF (s.data.map asciiLower)))

/-- One alternative of `(\d{1,3})\b`: exactly `k` digits followed by a word
boundary.  Returns the digit count and value. -/
def numTryB (cs : List Char) (k : ℕ) : Option (ℕ × ℕ) :=
  let ds := cs.take k
  if ds.all (fun c => c.isDigit) && ds.length == k &&
     (match cs.drop k with
      | [] => true
      | c :: _ => !isWordChar c) then
    some (k, digitsVal ds)
  else none

/-- `(\d{1,3})\b` at the head of `cs`, greedy in the digit count. -/
def numAtB (cs : List Char) : Option (ℕ × ℕ) :=
  (numTryB cs 3).orElse (fun _ => (numTryB cs 2).orElse (fun _ => numTryB cs 1))

/-- The middle of the fraction pattern, `\s*\/\s*`. -/
def midFrac (cs : List Char) : Option ℕ :=
  let w := wsCount cs
  match cs.drop w with
  | '/' :: rest => some (w + 1 + wsCount rest)
  | _ => none

/-- The middle of the phrase pattern, `\s*(?:out\s*of)\s*` (the text is
already lower-cased). -/
def midOutOf (cs : List Char) : Option ℕ :=
  let w := wsCount cs
  let r := cs.drop w
  if ['o','u','t'].isPrefixOf r then
    let r1 := r.drop 3
    let w1 := wsCount r1
    if ['o','f'].isPrefixOf (r1.drop w1) then
      some (w + 3 + w1 + 2 + wsCount ((r1.drop w1).drop 2))
    else none
  else none

/-- One alternative of the leading `(\d{1,3})` of a pair pattern: exactly
`k` digits, then the middle, then the trailing number.  Returns
`(consumed, obtained, outOf)`. -/
def pairTry (mid : List Char → Option ℕ) (cs : List Char) (k : ℕ) :
    Option (ℕ × ℕ × ℕ) :=
  let ds := cs.take k
  if ds.all (fun c => c.isDigit) && ds.length == k then
    match mid (cs.drop k) with
    | some m =>
      match numAtB ((cs.drop k).drop m) with
      | some p => some (k + m + p.1, digitsVal ds, p.2)
      | none => none
    | none => none
  else none

/-- A full pair-pattern match anchored at the head of `cs` (the leading
`\b` is checked by the caller), greedy in the first digit count. -/
def pairAt (mid : List Char → Option ℕ) (cs : List Char) : Option (ℕ × ℕ × ℕ) :=
  (pairTry mid cs 3).orElse (fun _ => (pairTry mid cs 2).orElse (fun _ => pairTry mid cs 1))

/-- The `matchAll` loop over a pair pattern together with the validity
filter of the source (`outOf <= 0` and `obtained > outOf` matches are
consumed but produce no candidate).  `prevWord` tracks whether the previous
character is a word character, for the leading `\b`. -/
def scanPairsFrom (mid : List Char → Option ℕ) :
    ℕ → Bool → List Char → List ScoreCandidate
  | 0, _, _ => []
  | _ + 1, _, [] => []
  | fuel + 1, prevWord, c :: rest =>
    if !prevWord then
      match pairAt mid (c :: rest) with
      | some (n, o, oo) =>
        (if 0 < oo ∧ o ≤ oo then [⟨o, some oo, String.mk ((c :: rest).take n)⟩] else []) ++
          scanPairsFrom mid fuel true ((c :: rest).drop n)
      | none => scanPairsFrom mid fuel (isWordChar c) rest
    else scanPairsFrom mid fuel (isWordChar c) rest

/-- All valid fraction candidates (`23/30` style), in discovery order. -/
def fracCands (cs : List Char) : List ScoreCandidate :=
  scanPairsFrom midFrac (cs.length + 1) false cs

/-- All valid "out of" candidates (`23 out of 30` style). -/
def outOfCands (cs : List Char) : List ScoreCandidate :=
  scanPairsFrom midOutOf (cs.length + 1) false cs

/-- The `candidates` array after steps 1–2 of the source: fraction matches
first, then "out of" matches. -/
def scanCands (cs : List Char) : List ScoreCandidate :=
  fracCands cs ++ outOfCands cs

/-- The candidate score of `pickBestPair`: the `outOf` value, `+1000` when
it equals the supplied `expectedOutOf`, `+5` when the raw text has a `/`. -/
def pbScore (expected : Option ℕ) (c : ScoreCandidate) : ℕ :=
  c.outOf.getD 0 +
  (match expected with
   | some e => if c.outOf = some e then 1000 else 0
   | none => 0) +
  (if '/' ∈ c.raw.data then 5 else 0)

/-- `pickBestPair`: the source stably sorts descending by score and takes
the head, i.e. the earliest candidate of maximal score; the fold below
keeps the current best on ties, which is the same element. -/
def pickBestPair (cands : List ScoreCandidate) (expected : Option ℕ) :
    Option ScoreCandidate :=
  match cands with
  | [] => none
  | c :: rest =>
    some (rest.foldl (fun best x =>
      if pbScore expected best < pbScore expected x then x else best) c)

/-- All values of `/\b(\d{1,3})\b/g` over the text, in order. -/
def allNumsFrom : ℕ → Bool → List Char → List ℕ
  | 0, _, _ => []
  | _ + 1, _, [] => []
  | fuel + 1, prevWord, c :: rest =>
    if !prevWord then
      match numAtB (c :: rest) with
      | some (k, v) => v :: allNumsFrom fuel true ((c :: rest).drop k)
      | none => allNumsFrom fuel (isWordChar c) rest
    else allNumsFrom fuel (isWordChar c) rest

/-- The number list of the step-4 fallback. -/
def allNums (cs : List Char) : List ℕ :=
  allNumsFrom (cs.length + 1) false cs

/-- Leading `\b` of the label regex: a boundary between the previous
character and the hint's first character. -/
def lblBoundaryHead (prevWord : Bool) (hint : List Char) : Bool :=
  match hint with
  | [] => true
  | h :: _ => prevWord != isWordChar h

/-- Trailing `\b` of the label regex: a boundary between the hint's last
character and the character that follows the occurrence. -/
def lblBoundaryTail (hint after : List Char) : Bool :=
  match hint.getLast? with
  | none => true
  | some h =>
    isWordChar h != (match after with
      | [] => false
      | a :: _ => isWordChar a)

/-- `window.match(/\b(\d{1,3})\b/)`: the leftmost single number match. -/
def windowNum : ℕ → Bool → List Char → Option ℕ
  | 0, _, _ => none
  | _ + 1, _, [] => none
  | fuel + 1, prevWord, c :: rest =>
    if !prevWord then
      match numAtB (c :: rest) with
      | some p => some p.2
      | none => windowNum fuel (isWordChar c) rest
    else windowNum fuel (isWordChar c) rest

/-- `findNearLabelNumber`: for each whole-word occurrence of the hint,
take the 60-character window starting at the occurrence, extract its first
1–3-digit number, and accept it when it is at most `expectedOutOf`.
`pos` is the absolute index of the current suffix `cs` in `full`; after an
occurrence the scan resumes at its end, where the previous character is the
hint's last character. -/
def lblScanFrom (full hint : List Char) (expectedOutOf : ℕ) :
    ℕ → Bool → ℕ → List Char → Option ℕ
  | 0, _, _, _ => none
  | _ + 1, _, _, [] => none
  | fuel + 1, prevWord, pos, c :: rest =>
    if lblBoundaryHead prevWord hint && hint.isPrefixOf (c :: rest) &&
       lblBoundaryTail hint ((c :: rest).drop hint.length) && hint.length != 0 then
      match windowNum 61 false ((full.drop pos).take 60) with
      | some v =>
        if v ≤ expectedOutOf then some v
        else lblScanFrom full hint expectedOutOf fuel
          (hint.getLast?.elim prevWord isWordChar) (pos + hint.length)
          ((c :: rest).drop hint.length)
      | none => lblScanFrom full hint expectedOutOf fuel
          (hint.getLast?.elim prevWord isWordChar) (pos + hint.length)
          ((c :: rest).drop hint.length)
    else lblScanFrom full hint expectedOutOf fuel (isWordChar c) (pos + 1) rest

/-- `findNearLabelNumber(text, labelHint, expectedOutOf)`. -/
def findNearLabelNumber (text hint : List Char) (expectedOutOf : ℕ) : Option ℕ :=
  lblScanFrom text hint expectedOutOf (text.length + 1) false 0 text

/-- `(params.labelHint || "marks").toLowerCase()`: an absent or empty hint
falls back to `"marks"`. -/
def hintOf (labelHint : Option String) : List Char :=
  (if labelHint.getD "" = "" then "marks" else labelHint.getD "").data.map asciiLower

/-- Steps 4–5 of the source: pick any 1–3-digit number in `[0, 100]`, else
report total failure.  The fallback pushes its own entry onto `candidates`. -/
def fallbackResult (text : List Char) (expectedOutOf : Option ℕ)
    (cands : List ScoreCandidate) : ExtractedScore :=
  match (allNums text).filter (fun n => n ≤ 100) with
  | n :: _ =>
    { obtained := some n, outOf := expectedOutOf, confidence := 25/100,
      method := Method.fallback, candidates := cands ++ [⟨n, expectedOutOf, toString n⟩] }
  | [] =>
    { obtained := none, outOf := expectedOutOf, confidence := 0,
      method := Method.fallback, candidates := cands }

/-- `extractScoreFromText` from `extractScore.ts`.  `expectedOutOf` is the
caller-supplied bound (`undefined` ↦ `none`); the truthiness test
`expectedOutOf && …` of the confidence line is modelled as
`e ≠ 0 ∧ …` since `0` is falsy in JS. -/
def extractScoreFromText (textIn : String) (expectedOutOf : Option ℕ)
    (labelHint : Option String) : ExtractedScore :=
  let text := normalizeScore textIn
  let cands := scanCands text
  match pickBestPair cands expectedOutOf with
  | some best =>
    { obtained := some best.obtained, outOf := best.outOf,
      confidence :=
        match expectedOutOf with
        | some e => if e ≠ 0 ∧ best.outOf = some e then 95/100 else 85/100
        | none => 85/100,
      method := if '/' ∈ best.raw.data then Method.fraction else Method.out_of,
      candidates := cands }
  | none =>
    match expectedOutOf with
    | some e =>
      match findNearLabelNumber text (hintOf labelHint) e with
      | some v =>
        { obtained := some v, outOf := some e, confidence := 65/100,
          method := Method.label,
          candidates := cands ++ [⟨v, some e, String.mk (hintOf labelHint) ++ ": " ++ toString v⟩] }
      | none => fallbackResult text expectedOutOf cands
    | none => fallbackResult text expectedOutOf cands

/-! ## Theorems -/

/-- C10: for every input text and optional `expectedOutOf`/`labelHint`, the
`confidence` of the `ExtractedScore` returned by `extractScoreFromText` is
one of exactly `0`, `0.25`, `0.65`, `0.85`, `0.95`, hence lies in `[0, 1]`. -/
theorem extractScore_confidence_values (t : String) (e : Option ℕ) (h : Option String) :
    ((extractScoreFromText t e h).confidence = 0 ∨
     (extractScoreFromText t e h).confidence = 25/100 ∨
     (extractScoreFromText t e h).confidence = 65/100 ∨
     (extractScoreFromText t e h).confidence = 85/100 ∨
     (extractScoreFromText t e h).confidence = 95/100) ∧
    0 ≤ (extractScoreFromText t e h).confidence ∧
    (extractScoreFromText t e h).confidence ≤ 1 := by
  have hv : (extractScoreFromText t e h).confidence = 0 ∨
      (extractScoreFromText t e h).confidence = 25/100 ∨
      (extractScoreFromText t e h).confidence = 65/100 ∨
      (extractScoreFromText t e h).confidence = 85/100 ∨
      (extractScoreFromText t e h).confidence = 95/100 := by
    simp only [extractScoreFromText, fallbackResult]
    split
    · split
      · split <;> simp
      · simp
    · split
      · split
        · simp
        · split <;> simp
      · split <;> simp
  refine ⟨hv, ?_, ?_⟩ <;> rcases hv with h | h | h | h | h <;> rw [h] <;> norm_num

/-- C6: `cosineSimilarity` always lies in `[0, 1]`, and equals `0` whenever
either text tokenizes to zero terms. -/
theorem cosineSimilarity_range (a b : String) :
    0 ≤ cosineSimilarity a b ∧ cosineSimilarity a b ≤ 1 ∧
    ((tokenize a = [] ∨ tokenize b = []) → cosineSimilarity a b = 0) := by
  simp only [cosineSimilarity]
  split
  · norm_num
  · split
    · norm_num
    · unfold clampR
      refine ⟨le_min zero_le_one (le_max_left 0 _), min_le_left _ _, ?_⟩
      intro hempty
      simp_all

/-- C6 witness: the range and zero-on-empty facts evaluated at empty texts. -/
theorem cosineSimilarity_range_witness :
    (tokenize "" = [] ∨ tokenize "" = []) ∧ cosineSimilarity "" "" = 0 :=
  ⟨Or.inl (by decide), (cosineSimilarity_range "" "").2.2 (Or.inl (by decide))⟩

/-- C9: `extractQaPairs` is total (it is a Lean function, defined on every
string); on an input whose trimmed text is empty it returns `[]`, and on a
nonempty input with no question markers it returns the single span `"1"`
holding the whole trimmed text. -/
theorem extractQaPairs_fallbacks (raw : String) :
    (listTrim (replCRLF raw.data) = [] → extractQaPairs raw = []) ∧
    (listTrim (replCRLF raw.data) ≠ [] →
      markersOf (listTrim (replCRLF raw.data)) = [] →
      extractQaPairs raw = [⟨"1", String.mk (listTrim (replCRLF raw.data))⟩]) := by
  constructor
  · intro hempty
    simp [extractQaPairs, hempty]
  · intro hne hmk
    simp [extractQaPairs, hne, hmk]

/-- C9 witness: the two fallbacks evaluated on `""` and `"just some text"`. -/
theorem extractQaPairs_fallbacks_witness :
    (listTrim (replCRLF "".data) = [] ∧ extractQaPairs "" = []) ∧
    (listTrim (replCRLF "just some text".data) ≠ [] ∧
      markersOf (listTrim (replCRLF "just some text".data)) = [] ∧
      extractQaPairs "just some text" = [⟨"1", "just some text"⟩]) :=
  ⟨⟨by decide, (extractQaPairs_fallbacks "").1 (by decide)⟩,
   ⟨by decide, by decide,
    (extractQaPairs_fallbacks "just some text").2 (by decide) (by decide)⟩⟩

/-- C8 counterexample: in `"1:x"` the separator `:` is immediately followed
by the non-whitespace character `x`, yet `"1:"` is still recognised as a
question marker (the regex ends in `\s*`, which may be empty), so
`extractQaPairs` returns the span `x` for question `1` instead of treating
the whole text as marker-free. -/
theorem marker_without_trailing_ws :
    markersOf ("1:x".data) = [⟨0, "1", 2⟩] ∧
    isWs 'x' = false ∧
    extractQaPairs "1:x" = [⟨"1", "x"⟩] := by
  refine ⟨by decide, by decide, by decide⟩

lemma digit_facts {c : Char} (h : c.isDigit = true) :
    isWs c = false ∧ c ≠ 'q' ∧ c ≠ 'Q' := by
  refine ⟨?_, ?_, ?_⟩
  · by_contra hws
    rw [Bool.not_eq_false] at hws
    simp only [isWs, Bool.or_eq_true, decide_eq_true_eq] at hws
    rcases hws with ((((rfl | rfl) | rfl) | rfl) | rfl) | rfl <;>
      exact absurd h (by decide)
  · rintro rfl
    exact absurd h (by decide)
  · rintro rfl
    exact absurd h (by decide)

lemma sep_facts {sep : Char}
    (h : sep = ':' ∨ sep = '.' ∨ sep = ')' ∨ sep = '-') :
    isWs sep = false ∧ sep.isDigit = false ∧
    (sep = ':' || sep = '.' || sep = ')' || sep = '-') = true := by
  rcases h with rfl | rfl | rfl | rfl <;> exact ⟨by decide, by decide, by decide⟩

lemma wsCount_cons_false {c : Char} {cs : List Char} (h : isWs c = false) :
    wsCount (c :: cs) = 0 := by
  simp [wsCount, List.takeWhile_cons, h]

lemma sepAfter_sep {sep : Char} {rest : List Char} (hsw : isWs sep = false)
    (hss : (sep = ':' || sep = '.' || sep = ')' || sep = '-') = true) :
    sepAfter (sep :: rest) = some (1 + wsCount rest) := by
  simp only [sepAfter, wsCount_cons_false hsw, List.drop_zero, if_pos hss]

lemma qAlts_not_q {a : Char} {cs : List Char} (h1 : a ≠ 'q') (h2 : a ≠ 'Q') :
    qAlts (a :: cs) = [0] := by
  simp [qAlts, h1, h2]

lemma digitsTry_self (ds : List Char) (sep : Char) (rest : List Char)
    (hall : ds.all (fun c => c.isDigit) = true) (hsw : isWs sep = false)
    (hss : (sep = ':' || sep = '.' || sep = ')' || sep = '-') = true) :
    digitsTry (ds ++ sep :: rest) ds.length =
      some (ds.length + (1 + wsCount rest), String.mk ds) := by
  simp only [digitsTry, List.take_left, List.drop_left, hall,
    sepAfter_sep hsw hss]
  simp

lemma digitsTry_none (ds : List Char) (sep : Char) (rest : List Char) (k : ℕ)
    (hlt : ds.length < k) (hsd : sep.isDigit = false) :
    digitsTry (ds ++ sep :: rest) k = none := by
  have hmem : sep ∈ (ds ++ sep :: rest).take k := by
    rw [List.take_append_eq_append_take,
      List.take_of_length_le (le_of_lt hlt)]
    obtain ⟨m, hm⟩ : ∃ m, k - ds.length = m + 1 :=
      ⟨k - ds.length - 1, by omega⟩
    rw [hm, List.take_succ_cons]
    exact List.mem_append.mpr (Or.inr (List.mem_cons_self _ _))
  have hallf : ((ds ++ sep :: rest).take k).all (fun c => c.isDigit) = false := by
    refine Bool.eq_false_iff.mpr (fun hall => ?_)
    rw [List.all_eq_true] at hall
    exact absurd (hall sep hmem) (by simp [hsd])
  simp only [digitsTry, hallf]
  simp

lemma digitsPart_self (ds : List Char) (sep : Char) (rest : List Char)
    (hne : ds ≠ []) (hlen : ds.length ≤ 3)
    (hall : ds.all (fun c => c.isDigit) = true)
    (hsd : sep.isDigit = false) (hsw : isWs sep = false)
    (hss : (sep = ':' || sep = '.' || sep = ')' || sep = '-') = true) :
    digitsPart (ds ++ sep :: rest) =
      some (ds.length + (1 + wsCount rest), String.mk ds) := by
  have hpos : 0 < ds.length := List.length_pos.mpr hne
  have hx := digitsTry_self ds sep rest hall hsw hss
  have h123 : ds.length = 1 ∨ ds.length = 2 ∨ ds.length = 3 := by omega
  unfold digitsPart
  rcases h123 with h1 | h2 | h3
  · rw [h1] at hx
    rw [digitsTry_none ds sep rest 3 (by omega) hsd,
      digitsTry_none ds sep rest 2 (by omega) hsd, h1]
    simp [Option.orElse, hx]
  · rw [h2] at hx
    rw [digitsTry_none ds sep rest 3 (by omega) hsd, h2]
    simp [Option.orElse, hx]
  · rw [h3] at hx
    rw [h3]
    simp [Option.orElse, hx]

/-- C8 amended: a question marker is one-to-three decimal digits followed
by a separator among `:` `.` `)` `-` and then *optional* whitespace; the
separator need not be followed by a whitespace character.  Any
digits-plus-separator head matches whatever follows, consuming the digits,
the separator and any whitespace run after it, and capturing the digits as
the question id. -/
theorem marker_separator_optional_ws (ds : List Char) (sep : Char)
    (rest : List Char) (hne : ds ≠ []) (hlen : ds.length ≤ 3)
    (hdig : ∀ c ∈ ds, c.isDigit = true)
    (hsep : sep = ':' ∨ sep = '.' ∨ sep = ')' ∨ sep = '-') :
    matchCore (ds ++ sep :: rest) =
      some (ds.length + 1 + wsCount rest, String.mk ds) := by
  obtain ⟨hsw, hsd, hss⟩ := sep_facts hsep
  have hall : ds.all (fun c => c.isDigit) = true := by
    rw [List.all_eq_true]
    intro x hx
    simpa using hdig x hx
  have hdp := digitsPart_self ds sep rest hne hlen hall hsd hsw hss
  rcases ds with _ | ⟨a, ds1⟩
  · exact absurd rfl hne
  obtain ⟨haw, haq, haQ⟩ := digit_facts (hdig a (List.mem_cons_self _ _))
  rw [List.cons_append] at hdp
  simp only [matchCore, List.cons_append, wsCount_cons_false haw,
    List.drop_zero, qAlts_not_q haq haQ, List.findSome?_cons,
    List.findSome?_nil, hdp, Option.map_some']
  simp
  omega

/-- C8 amended witness: the general marker fact evaluated at the two-digit
id `"42"`, the separator `)` and a non-whitespace continuation. -/
theorem marker_separator_optional_ws_witness :
    (['4', '2'] : List Char) ≠ [] ∧ (['4', '2'] : List Char).length ≤ 3 ∧
    (∀ c ∈ (['4', '2'] : List Char), c.isDigit = true) ∧
    (')' = ':' ∨ ')' = '.' ∨ ')' = ')' ∨ ')' = '-') ∧
    matchCore (['4', '2'] ++ ')' :: ['x']) =
      some ((['4', '2'] : List Char).length + 1 + wsCount ['x'],
        String.mk ['4', '2']) :=
  ⟨by decide, by decide, by decide, by decide,
   marker_separator_optional_ws ['4', '2'] ')' ['x'] (by decide) (by decide)
     (by decide) (by decide)⟩

lemma pickBestPair_eq_none {cands : List ScoreCandidate} {e : Option ℕ} :
    pickBestPair cands e = none ↔ cands = [] := by
  cases cands <;> simp [pickBestPair]

/-- C5 counterexample: on `"hello 7"` the fraction/out-of scans find
nothing and the label strategy does not fire (no `expectedOutOf`), so the
claim predicts `candidates = []`; but the number fallback pushes its own
entry, so `candidates = [{obtained := 7, outOf := null, raw := "7"}]`. -/
theorem fallback_pushes_candidate :
    scanCands (normalizeScore "hello 7") = [] ∧
    (extractScoreFromText "hello 7" none none).method = Method.fallback ∧
    (extractScoreFromText "hello 7" none none).candidates =
      [⟨7, none, "7"⟩] := by
  refine ⟨by decide, by decide, by decide⟩

/-- C5 amended: `candidates` contains exactly the valid fraction/out-of
matches of steps 2–3, plus one label-derived entry iff the label strategy
produced the result, plus one fallback-derived entry iff the number
fallback produced the result; on total failure it is empty.  (A pair
strategy wins whenever any scan candidate exists, so in the label and
fallback cases the scan list is empty.) -/
theorem candidates_composition (t : String) (e : Option ℕ) (h : Option String) :
    ((extractScoreFromText t e h).method = Method.fraction ∨
      (extractScoreFromText t e h).method = Method.out_of →
      (extractScoreFromText t e h).candidates = scanCands (normalizeScore t)) ∧
    ((extractScoreFromText t e h).method = Method.label →
      scanCands (normalizeScore t) = [] ∧
      ∃ v ev, e = some ev ∧
        (extractScoreFromText t e h).obtained = some v ∧
        (extractScoreFromText t e h).candidates =
          [⟨v, some ev, String.mk (hintOf h) ++ ": " ++ toString v⟩]) ∧
    ((extractScoreFromText t e h).method = Method.fallback →
      scanCands (normalizeScore t) = [] ∧
      ((∃ n, (extractScoreFromText t e h).obtained = some n ∧
          (extractScoreFromText t e h).candidates = [⟨n, e, toString n⟩]) ∨
        ((extractScoreFromText t e h).obtained = none ∧
          (extractScoreFromText t e h).candidates = []))) := by
  rcases hp : pickBestPair (scanCands (normalizeScore t)) e with _ | best
  · have hc : scanCands (normalizeScore t) = [] := pickBestPair_eq_none.mp hp
    rcases e with _ | ev
    · rcases hf : (allNums (normalizeScore t)).filter (fun n => n ≤ 100) with _ | ⟨n, ns⟩ <;>
        simp only [extractScoreFromText, fallbackResult, hp, hf] <;>
        refine ⟨fun hk => by simp_all, fun hk => by simp_all, fun _ => ⟨hc, ?_⟩⟩
      · refine Or.inr ⟨?_, ?_⟩ <;> simp [hc]
      · refine Or.inl ⟨n, ?_, ?_⟩ <;> simp [hc]
    · rcases hl : findNearLabelNumber (normalizeScore t) (hintOf h) ev with _ | v
      · rcases hf : (allNums (normalizeScore t)).filter (fun n => n ≤ 100) with _ | ⟨n, ns⟩ <;>
          simp only [extractScoreFromText, fallbackResult, hp, hl, hf] <;>
          refine ⟨fun hk => by simp_all, fun hk => by simp_all, fun _ => ⟨hc, ?_⟩⟩
        · refine Or.inr ⟨?_, ?_⟩ <;> simp [hc]
        · refine Or.inl ⟨n, ?_, ?_⟩ <;> simp [hc]
      · simp only [extractScoreFromText, fallbackResult, hp, hl]
        refine ⟨fun hk => by simp_all, fun _ => ⟨hc, v, ev, ?_, ?_, ?_⟩,
          fun hk => by simp_all⟩ <;> simp [hc]
  · simp only [extractScoreFromText, hp]
    refine ⟨fun _ => trivial, fun hk => ?_, fun hk => ?_⟩ <;>
      by_cases hs : '/' ∈ best.raw.data <;> simp [hs] at hk

/-- C5 amended witness: on `"3/4"` the fraction strategy wins and
`candidates` is exactly the scan list. -/
theorem candidates_composition_witness :
    ((extractScoreFromText "3/4" none none).method = Method.fraction ∨
      (extractScoreFromText "3/4" none none).method = Method.out_of) ∧
    (extractScoreFromText "3/4" none none).candidates =
      scanCands (normalizeScore "3/4") :=
  ⟨Or.inl (by decide),
   (candidates_composition "3/4" none none).1 (Or.inl (by decide))⟩

/-! ### Grading lemmas -/

lemma foldl_add_eq_sum {α : Type} (f : α → ℝ) (l : List α) (c : ℝ) :
    l.foldl (fun acc q => acc + f q) c = c + (l.map f).sum := by
  induction l generalizing c with
  | nil => simp
  | cons x xs ih => simp [ih, add_assoc]

lemma clampR_half (k : ℤ) (M : ℕ) :
    (∃ n : ℤ, clampR ((k : ℝ) / 2) 0 M = (n : ℝ) / 2) ∧
    0 ≤ clampR ((k : ℝ) / 2) 0 M ∧ clampR ((k : ℝ) / 2) 0 M ≤ M := by
  unfold clampR
  refine ⟨?_, le_min (Nat.cast_nonneg M) (le_max_left 0 _), min_le_left _ _⟩
  rcases le_total ((k : ℝ) / 2) 0 with h | h
  · refine ⟨0, ?_⟩
    rw [max_eq_left h, min_eq_right (Nat.cast_nonneg M)]
    norm_num
  · rcases le_total ((k : ℝ) / 2) (M : ℝ) with h2 | h2
    · exact ⟨k, by rw [max_eq_right h, min_eq_right h2]⟩
    · refine ⟨2 * M, ?_⟩
      rw [max_eq_right h, min_eq_left h2]
      push_cast
      ring

lemma gradeOne_questionId (m s : List QaPair) (M : ℕ) (id : String) :
    (gradeOne m s M id).questionId = id := by
  simp only [gradeOne]
  split
  · rfl
  · split <;> rfl

lemma gradeOne_marks (m s : List QaPair) (M : ℕ) (id : String) :
    (∃ n : ℤ, (gradeOne m s M id).marksAwarded = (n : ℝ) / 2) ∧
    0 ≤ (gradeOne m s M id).marksAwarded ∧
    (gradeOne m s M id).marksAwarded ≤ (gradeOne m s M id).maxMarks ∧
    (gradeOne m s M id).maxMarks = (M : ℝ) := by
  simp only [gradeOne]
  split
  · exact ⟨⟨0, by norm_num⟩, le_refl 0, Nat.cast_nonneg M, rfl⟩
  · split
    · exact ⟨⟨0, by norm_num⟩, le_refl 0, Nat.cast_nonneg M, rfl⟩
    · exact ⟨(clampR_half _ M).1, (clampR_half _ M).2.1, (clampR_half _ M).2.2, rfl⟩

lemma firstDedup_mem {α : Type} [DecidableEq α] {a : α} {l : List α} :
    a ∈ firstDedup l ↔ a ∈ l := by
  induction l with
  | nil => simp [firstDedup]
  | cons k rest ih =>
    by_cases hak : a = k <;> simp [firstDedup, List.mem_filter, hak, ih]

lemma firstDedup_nodup {α : Type} [DecidableEq α] (l : List α) :
    (firstDedup l).Nodup := by
  induction l with
  | nil => simp [firstDedup]
  | cons k rest ih =>
    refine List.Nodup.cons ?_ (ih.filter _)
    intro hk
    simp at hk

lemma count_firstDedup {α : Type} [DecidableEq α] (a : α) (l : List α) :
    (firstDedup l).count a = if a ∈ l then 1 else 0 := by
  by_cases h : a ∈ l
  · rw [if_pos h]
    exact List.count_eq_one_of_mem (firstDedup_nodup l) (firstDedup_mem.mpr h)
  · rw [if_neg h]
    exact List.count_eq_zero_of_not_mem (fun hc => h (firstDedup_mem.mp hc))

/-- C2: `totalMarks` and `maxTotalMarks` of every `Evaluation` produced by
`gradeSubmissionHeuristic` equal the sums of the per-question
`marksAwarded` and `maxMarks`, and both are nonnegative. -/
theorem grade_totals (m s : List QaPair) (M : ℕ) :
    (gradeSubmissionHeuristic m s M).totalMarks =
      ((gradeSubmissionHeuristic m s M).questions.map (fun q => q.marksAwarded)).sum ∧
    (gradeSubmissionHeuristic m s M).maxTotalMarks =
      ((gradeSubmissionHeuristic m s M).questions.map (fun q => q.maxMarks)).sum ∧
    0 ≤ (gradeSubmissionHeuristic m s M).totalMarks ∧
    0 ≤ (gradeSubmissionHeuristic m s M).maxTotalMarks := by
  have hq : (gradeSubmissionHeuristic m s M).questions =
      (questionIdsOf m s).map (gradeOne m s M) := rfl
  have ht : (gradeSubmissionHeuristic m s M).totalMarks =
      ((gradeSubmissionHeuristic m s M).questions.map (fun q => q.marksAwarded)).sum := by
    show ((questionIdsOf m s).map (gradeOne m s M)).foldl (fun acc q => acc + q.marksAwarded) 0 = _
    rw [foldl_add_eq_sum, zero_add, hq]
  have hmx : (gradeSubmissionHeuristic m s M).maxTotalMarks =
      ((gradeSubmissionHeuristic m s M).questions.map (fun q => q.maxMarks)).sum := by
    show ((questionIdsOf m s).map (gradeOne m s M)).foldl (fun acc q => acc + q.maxMarks) 0 = _
    rw [foldl_add_eq_sum, zero_add, hq]
  refine ⟨ht, hmx, ?_, ?_⟩
  · rw [ht]
    refine List.sum_nonneg ?_
    intro x hx
    rw [hq] at hx
    simp only [List.mem_map] at hx
    obtain ⟨q, ⟨id, _, hgid⟩, hqx⟩ := hx
    subst hqx hgid
    exact (gradeOne_marks m s M id).2.1
  · rw [hmx]
    refine List.sum_nonneg ?_
    intro x hx
    rw [hq] at hx
    simp only [List.mem_map] at hx
    obtain ⟨q, ⟨id, _, hgid⟩, hqx⟩ := hx
    subst hqx hgid
    rw [(gradeOne_marks m s M id).2.2.2]
    exact Nat.cast_nonneg M

/-- C1: for every pair of span lists and positive `maxMarksPerQuestion`,
`gradeSubmissionHeuristic` yields exactly one `QuestionResult` per question
id occurring on either side (and none for other ids), and every
`marksAwarded` is a multiple of `0.5` with `0 ≤ marksAwarded ≤ maxMarks`. -/
theorem grade_per_question (m s : List QaPair) (M : ℕ) (_hM : 0 < M) :
    (∀ id : String,
      (gradeSubmissionHeuristic m s M).questions.countP (fun q => q.questionId == id) =
        if id ∈ m.map (fun q => q.questionId) ∨ id ∈ s.map (fun q => q.questionId)
        then 1 else 0) ∧
    (∀ q ∈ (gradeSubmissionHeuristic m s M).questions,
      (∃ n : ℤ, q.marksAwarded = (n : ℝ) / 2) ∧
      0 ≤ q.marksAwarded ∧ q.marksAwarded ≤ q.maxMarks ∧ q.maxMarks = (M : ℝ)) := by
  have hq : (gradeSubmissionHeuristic m s M).questions =
      (questionIdsOf m s).map (gradeOne m s M) := rfl
  constructor
  · intro id
    rw [hq, List.countP_map]
    have hcg : (questionIdsOf m s).countP
        ((fun q => q.questionId == id) ∘ gradeOne m s M) =
        (questionIdsOf m s).countP (fun x => x == id) := by
      refine List.countP_congr ?_
      intro a _
      simp [Function.comp, gradeOne_questionId]
    rw [hcg]
    have hperm : List.Perm (questionIdsOf m s)
        (firstDedup (m.map (fun q => q.questionId) ++ s.map (fun q => q.questionId))) :=
      List.perm_insertionSort _ _
    rw [hperm.countP_eq]
    have : (firstDedup (m.map (fun q => q.questionId) ++
        s.map (fun q => q.questionId))).countP (fun x => x == id) =
        (firstDedup (m.map (fun q => q.questionId) ++
          s.map (fun q => q.questionId))).count id := by
      simp [List.count_eq_countP]
    rw [this, count_firstDedup]
    simp [List.mem_append]
  · intro q hqmem
    rw [hq] at hqmem
    simp only [List.mem_map] at hqmem
    obtain ⟨id, _, hid⟩ := hqmem
    subst hid
    exact gradeOne_marks m s M id

/-- C1 witness: the per-question invariants at a concrete submission with
`maxMarksPerQuestion = 5`. -/
theorem grade_per_question_witness :
    0 < 5 ∧
    ((∀ id : String,
      (gradeSubmissionHeuristic [⟨"1", "alpha"⟩] [] 5).questions.countP
          (fun q => q.questionId == id) =
        if id ∈ ([⟨"1", "alpha"⟩] : List QaPair).map (fun q => q.questionId) ∨
            id ∈ ([] : List QaPair).map (fun q => q.questionId)
        then 1 else 0) ∧
    (∀ q ∈ (gradeSubmissionHeuristic [⟨"1", "alpha"⟩] [] 5).questions,
      (∃ n : ℤ, q.marksAwarded = (n : ℝ) / 2) ∧
      0 ≤ q.marksAwarded ∧ q.marksAwarded ≤ q.maxMarks ∧ q.maxMarks = ((5 : ℕ) : ℝ))) :=
  ⟨by norm_num, grade_per_question [⟨"1", "alpha"⟩] [] 5 (by norm_num)⟩

/-! ### Cosine-similarity symmetry -/

lemma sum_firstDedup (f : String → ℕ) (l : List String) :
    ((firstDedup l).map f).sum = ∑ t ∈ l.toFinset, f t := by
  have hfin : (firstDedup l).toFinset = l.toFinset := by
    ext a
    simp [List.mem_toFinset, firstDedup_mem]
  rw [← List.sum_toFinset f (firstDedup_nodup l), hfin]

lemma dotp_union (ta tb : List String) :
    dotp ta tb = ∑ t ∈ ta.toFinset ∪ tb.toFinset, ta.count t * tb.count t := by
  unfold dotp
  rw [sum_firstDedup]
  refine Finset.sum_subset Finset.subset_union_left ?_
  intro x _ hx
  rw [List.count_eq_zero_of_not_mem (fun hm => hx (List.mem_toFinset.mpr hm))]
  exact Nat.zero_mul _

lemma dotp_comm (ta tb : List String) : dotp ta tb = dotp tb ta := by
  rw [dotp_union, dotp_union, Finset.union_comm]
  exact Finset.sum_congr rfl (fun t _ => Nat.mul_comm _ _)

/-- C7: `cosineSimilarity` is symmetric. -/
theorem cosineSimilarity_comm (a b : String) :
    cosineSimilarity a b = cosineSimilarity b a := by
  simp only [cosineSimilarity]
  by_cases h1 : tokenize a = []
  · simp [h1]
  · by_cases h2 : tokenize b = []
    · simp [h2]
    · rw [if_neg (show ¬(tokenize a = [] ∨ tokenize b = []) by simp [h1, h2]),
        if_neg (show ¬(tokenize b = [] ∨ tokenize a = []) by simp [h1, h2])]
      by_cases h3 : normSq (tokenize a) = 0
      · simp [h3]
      · by_cases h4 : normSq (tokenize b) = 0
        · simp [h4]
        · rw [if_neg (show ¬(normSq (tokenize a) = 0 ∨ normSq (tokenize b) = 0) by
              simp [h3, h4]),
            if_neg (show ¬(normSq (tokenize b) = 0 ∨ normSq (tokenize a) = 0) by
              simp [h3, h4]),
            dotp_comm, mul_comm (Real.sqrt (normSq (tokenize a)))]

/-! ### Segmenter de-duplication and ordering -/

lemma extractQaPairs_eq (raw : String) :
    extractQaPairs raw = sortByQid (dedupLast (preSpans raw)) := by
  simp only [extractQaPairs, preSpans]
  split
  · rfl
  · split
    · rfl
    · rfl

lemma getLast?_mem_of_eq_some {α : Type} {l : List α} {a : α}
    (h : l.getLast? = some a) : a ∈ l := by
  induction l with
  | nil => simp at h
  | cons x xs ih =>
    rcases xs with _ | ⟨y, ys⟩
    · simp only [List.getLast?_singleton, Option.some.injEq] at h
      simp [h]
    · rw [List.getLast?_cons_cons] at h
      exact List.mem_cons_of_mem _ (ih h)

lemma lastPairOf_spec {ps : List QaPair} {k : String}
    (h : k ∈ ps.map (fun q => q.questionId)) :
    (ps.filter (fun q => q.questionId = k)).getLast? = some (lastPairOf ps k) ∧
    (lastPairOf ps k).questionId = k := by
  obtain ⟨q, hq, hqk⟩ := List.mem_map.mp h
  have hmem : q ∈ ps.filter (fun q => q.questionId = k) :=
    List.mem_filter.mpr ⟨hq, by simp [hqk]⟩
  have hne : ps.filter (fun q => q.questionId = k) ≠ [] :=
    List.ne_nil_of_mem hmem
  rcases hL : (ps.filter (fun q => q.questionId = k)).getLast? with _ | p
  · exact absurd (List.getLast?_eq_none_iff.mp hL) hne
  · have hp : lastPairOf ps k = p := by
      simp [lastPairOf, hL]
    have hpk : p.questionId = k :=
      of_decide_eq_true (List.mem_filter.mp (getLast?_mem_of_eq_some hL)).2
    rw [hp]
    exact ⟨hL, hpk⟩

lemma mem_dedupLast {ps : List QaPair} {p : QaPair} :
    p ∈ dedupLast ps ↔
      p.questionId ∈ ps.map (fun q => q.questionId) ∧
      p = lastPairOf ps p.questionId := by
  unfold dedupLast
  rw [List.mem_map]
  constructor
  · rintro ⟨k, hk, rfl⟩
    have hkmem : k ∈ ps.map (fun q => q.questionId) := firstDedup_mem.mp hk
    have := (lastPairOf_spec hkmem).2
    rw [this]
    exact ⟨hkmem, rfl⟩
  · rintro ⟨hmem, hp⟩
    exact ⟨p.questionId, firstDedup_mem.mpr hmem, hp.symm⟩

lemma sortByQid_perm (ps : List QaPair) : List.Perm (sortByQid ps) ps :=
  List.perm_insertionSort _ _

lemma sortByQid_sorted (ps : List QaPair) :
    (sortByQid ps).Sorted (fun p q => strNum p.questionId ≤ strNum q.questionId) := by
  haveI : IsTotal QaPair (fun p q => strNum p.questionId ≤ strNum q.questionId) :=
    ⟨fun a b => Nat.le_total _ _⟩
  haveI : IsTrans QaPair (fun p q => strNum p.questionId ≤ strNum q.questionId) :=
    ⟨fun _ _ _ hab hbc => Nat.le_trans hab hbc⟩
  exact List.sorted_insertionSort _ _

/-- C3: the output of `extractQaPairs` is sorted ascending by the numeric
value of the question id; each returned span is the *last* span of its id
among the scanned spans (earlier duplicates are discarded); every scanned
id is represented; and on `"Q1: apple\nQ2: banana\nQ1: cherry"` the result
is exactly `[⟨"1", "cherry"⟩, ⟨"2", "banana"⟩]`. -/
theorem extractQaPairs_dedup_sorted (raw : String) :
    (extractQaPairs raw).Sorted
      (fun p q => strNum p.questionId ≤ strNum q.questionId) ∧
    (∀ p ∈ extractQaPairs raw,
      ((preSpans raw).filter (fun q => q.questionId = p.questionId)).getLast? =
        some p) ∧
    (∀ p ∈ preSpans raw, ∃ q ∈ extractQaPairs raw, q.questionId = p.questionId) ∧
    extractQaPairs "Q1: apple\nQ2: banana\nQ1: cherry" =
      [⟨"1", "cherry"⟩, ⟨"2", "banana"⟩] := by
  refine ⟨?_, ?_, ?_, by decide⟩
  · rw [extractQaPairs_eq]
    exact sortByQid_sorted _
  · intro p hp
    rw [extractQaPairs_eq] at hp
    have hp2 := (sortByQid_perm _).mem_iff.mp hp
    obtain ⟨hmem, hlast⟩ := mem_dedupLast.mp hp2
    rw [(lastPairOf_spec hmem).1, ← hlast]
  · intro p hp
    have hkmem : p.questionId ∈ (preSpans raw).map (fun q => q.questionId) :=
      List.mem_map.mpr ⟨p, hp, rfl⟩
    refine ⟨lastPairOf (preSpans raw) p.questionId, ?_, (lastPairOf_spec hkmem).2⟩
    rw [extractQaPairs_eq]
    refine (sortByQid_perm _).mem_iff.mpr ?_
    exact mem_dedupLast.mpr ⟨by rw [(lastPairOf_spec hkmem).2]; exact hkmem,
      by rw [(lastPairOf_spec hkmem).2]⟩

/-- C3 witness: the last-occurrence property evaluated on the duplicate-id
example. -/
theorem extractQaPairs_dedup_sorted_witness :
    (⟨"1", "cherry"⟩ : QaPair) ∈ extractQaPairs "Q1: apple\nQ2: banana\nQ1: cherry" ∧
    ((preSpans "Q1: apple\nQ2: banana\nQ1: cherry").filter
        (fun q => q.questionId = "1")).getLast? = some ⟨"1", "cherry"⟩ :=
  ⟨by decide,
   (extractQaPairs_dedup_sorted "Q1: apple\nQ2: banana\nQ1: cherry").2.1
     ⟨"1", "cherry"⟩ (by decide)⟩

/-! ### Best-pair selection -/

lemma foldBest_spec (s : ScoreCandidate → ℕ) (l : List ScoreCandidate) :
    ∀ b : ScoreCandidate,
    ∃ pre post,
      b :: l = pre ++ (l.foldl (fun best x => if s best < s x then x else best) b) :: post ∧
      (∀ x ∈ b :: l,
        s x ≤ s (l.foldl (fun best x => if s best < s x then x else best) b)) ∧
      (∀ x ∈ pre,
        s x < s (l.foldl (fun best x => if s best < s x then x else best) b)) := by
  induction l with
  | nil =>
    intro b
    exact ⟨[], [], rfl, by simp, by simp⟩
  | cons x xs ih =>
    intro b
    simp only [List.foldl_cons]
    by_cases hbx : s b < s x
    · rw [if_pos hbx]
      obtain ⟨pre, post, hdec, hmax, hstrict⟩ := ih x
      have hxw : s x ≤ s (xs.foldl (fun best y => if s best < s y then y else best) x) :=
        hmax x (List.mem_cons_self x xs)
      refine ⟨b :: pre, post, by rw [List.cons_append, ← hdec], ?_, ?_⟩
      · intro y hy
        rcases List.mem_cons.mp hy with rfl | hy2
        · exact le_of_lt (lt_of_lt_of_le hbx hxw)
        · exact hmax y hy2
      · intro y hy
        rcases List.mem_cons.mp hy with rfl | hy2
        · exact lt_of_lt_of_le hbx hxw
        · exact hstrict y hy2
    · rw [if_neg hbx]
      have hxb : s x ≤ s b := le_of_not_lt hbx
      obtain ⟨pre, post, hdec, hmax, hstrict⟩ := ih b
      rcases pre with _ | ⟨p, pre2⟩
      · simp only [List.nil_append] at hdec
        obtain ⟨hwb, hpost⟩ := List.cons.injEq _ _ _ _ ▸ hdec
        refine ⟨[], x :: xs, ?_, ?_, by simp⟩
        · simp only [List.nil_append]
          rw [← hwb]
        · intro y hy
          rcases List.mem_cons.mp hy with rfl | hy2
          · exact hmax y (List.mem_cons_self _ _)
          · rcases List.mem_cons.mp hy2 with rfl | hy3
            · rw [← hwb]
              exact hxb
            · exact hmax y (List.mem_cons_of_mem _ hy3)
      · rw [List.cons_append] at hdec
        obtain ⟨hpb, htail⟩ := List.cons.injEq _ _ _ _ ▸ hdec
        subst hpb
        have hbw : s b <
            s (xs.foldl (fun best y => if s best < s y then y else best) b) :=
          hstrict b (List.mem_cons_self _ _)
        refine ⟨b :: x :: pre2, post, ?_, ?_, ?_⟩
        · rw [List.cons_append, List.cons_append, ← htail]
        · intro y hy
          rcases List.mem_cons.mp hy with rfl | hy2
          · exact le_of_lt hbw
          · rcases List.mem_cons.mp hy2 with rfl | hy3
            · exact le_trans hxb (le_of_lt hbw)
            · exact hmax y (List.mem_cons_of_mem _ hy3)
        · intro y hy
          rcases List.mem_cons.mp hy with rfl | hy2
          · exact hbw
          · rcases List.mem_cons.mp hy2 with rfl | hy3
            · exact lt_of_le_of_lt hxb hbw
            · exact hstrict y (List.mem_cons_of_mem _ hy3)

lemma pickBestPair_spec (cands : List ScoreCandidate) (e : Option ℕ)
    (h : cands ≠ []) :
    ∃ w pre post, pickBestPair cands e = some w ∧ cands = pre ++ w :: post ∧
      (∀ c ∈ cands, pbScore e c ≤ pbScore e w) ∧
      (∀ c ∈ pre, pbScore e c < pbScore e w) := by
  rcases cands with _ | ⟨c, rest⟩
  · exact absurd rfl h
  · obtain ⟨pre, post, hdec, hmax, hstrict⟩ := foldBest_spec (pbScore e) rest c
    exact ⟨_, pre, post, rfl, hdec, hmax, hstrict⟩

lemma scanPairsFrom_outOf_pos (mid : List Char → Option ℕ) :
    ∀ (fuel : ℕ) (pw : Bool) (cs : List Char) (c : ScoreCandidate),
      c ∈ scanPairsFrom mid fuel pw cs →
      ∃ o, c.outOf = some o ∧ 0 < o ∧ c.obtained ≤ o := by
  intro fuel
  induction fuel with
  | zero =>
    intro pw cs c hc
    simp [scanPairsFrom] at hc
  | succ n ih =>
    intro pw cs c hc
    rcases cs with _ | ⟨x, rest⟩
    · simp [scanPairsFrom] at hc
    · simp only [scanPairsFrom] at hc
      by_cases hpw : (!pw) = true
      · rw [if_pos hpw] at hc
        rcases hpair : pairAt mid (x :: rest) with _ | ⟨n, o, oo⟩ <;>
          simp only [hpair] at hc
        · exact ih _ _ _ hc
        · rcases List.mem_append.mp hc with hc1 | hc2
          · by_cases hcond : 0 < oo ∧ o ≤ oo
            · rw [if_pos hcond] at hc1
              rcases List.mem_singleton.mp hc1 with rfl
              exact ⟨oo, rfl, hcond.1, hcond.2⟩
            · rw [if_neg hcond] at hc1
              simp at hc1
          · exact ih _ _ _ hc2
      · rw [if_neg hpw] at hc
        exact ih _ _ _ hc

lemma scanCands_outOf_pos {cs : List Char} {c : ScoreCandidate}
    (hc : c ∈ scanCands cs) :
    ∃ o, c.outOf = some o ∧ 0 < o ∧ c.obtained ≤ o := by
  rcases List.mem_append.mp hc with h | h
  · exact scanPairsFrom_outOf_pos midFrac _ _ _ _ h
  · exact scanPairsFrom_outOf_pos midOutOf _ _ _ _ h

/-- C4: when the fraction/out-of scans find candidates,
`extractScoreFromText` returns the candidate maximising
`outOf + (1000 if outOf = expectedOutOf) + (5 if raw contains '/')`, ties
resolved to the earliest-discovered candidate; the result's method is
`fraction` iff the winner's raw contains `/` (else `out_of`), and its
confidence is `0.95` iff the winner's `outOf` equals a supplied
`expectedOutOf`, else `0.85`. -/
theorem extractScore_best_pair (textIn : String) (expected : Option ℕ)
    (hint : Option String)
    (hne : scanCands (normalizeScore textIn) ≠ []) :
    ∃ w pre post,
      pickBestPair (scanCands (normalizeScore textIn)) expected = some w ∧
      scanCands (normalizeScore textIn) = pre ++ w :: post ∧
      (∀ c ∈ scanCands (normalizeScore textIn),
        pbScore expected c ≤ pbScore expected w) ∧
      (∀ c ∈ pre, pbScore expected c < pbScore expected w) ∧
      extractScoreFromText textIn expected hint =
        { obtained := some w.obtained, outOf := w.outOf,
          confidence :=
            if expected ≠ none ∧ w.outOf = expected then 95/100 else 85/100,
          method :=
            if '/' ∈ w.raw.data then Method.fraction else Method.out_of,
          candidates := scanCands (normalizeScore textIn) } := by
  obtain ⟨w, pre, post, hpick, hdec, hmax, hstrict⟩ :=
    pickBestPair_spec (scanCands (normalizeScore textIn)) expected hne
  have hwmem : w ∈ scanCands (normalizeScore textIn) := by
    rw [hdec]
    exact List.mem_append.mpr (Or.inr (List.mem_cons_self _ _))
  refine ⟨w, pre, post, hpick, hdec, hmax, hstrict, ?_⟩
  simp only [extractScoreFromText, hpick]
  rcases expected with _ | e
  · simp
  · by_cases hw : w.outOf = some e
    · have hepos : 0 < e := by
        obtain ⟨o, ho, hpos, _⟩ := scanCands_outOf_pos hwmem
        rw [ho] at hw
        exact (Option.some.injEq _ _ ▸ hw) ▸ hpos
      simp [hw, Nat.pos_iff_ne_zero.mp hepos]
    · simp [hw]

/-- C4 witness: the best-pair behaviour evaluated on `"23/30"`. -/
theorem extractScore_best_pair_witness :
    scanCands (normalizeScore "23/30") ≠ [] ∧
    (∃ w pre post,
      pickBestPair (scanCands (normalizeScore "23/30")) none = some w ∧
      scanCands (normalizeScore "23/30") = pre ++ w :: post ∧
      (∀ c ∈ scanCands (normalizeScore "23/30"),
        pbScore none c ≤ pbScore none w) ∧
      (∀ c ∈ pre, pbScore none c < pbScore none w) ∧
      extractScoreFromText "23/30" none none =
        { obtained := some w.obtained, outOf := w.outOf,
          confidence :=
            if (none : Option ℕ) ≠ none ∧ w.outOf = none then 95/100 else 85/100,
          method :=
            if '/' ∈ w.raw.data then Method.fraction else Method.out_of,
          candidates := scanCands (normalizeScore "23/30") }) :=
  ⟨by decide, extractScore_best_pair "23/30" none none (by decide)⟩

end SchoolAi
